import Mathlib

/-!
Verification of the core DSP pipeline of the RTL-SDR ingest notebook:
heterodyne mixing, windowed-sinc low-pass design, full linear convolution,
integer decimation by selection, polar-discriminator FM demodulation, and
manual phase unwrapping, together with the raw-IQ pair reader.

Sequences of complex samples are embedded as `List ℂ`, real signals as
`List ℝ`; floating-point arithmetic is embedded as exact real/complex
arithmetic, and `np.angle` as `Complex.arg` (both fix `angle 0 = 0` and
return values in `(-π, π]`).
-/

open ComplexConjugate

namespace RTLIngest

/-- Embedding of `rotated = downsampled[1:] * np.conj(downsampled[:len(downsampled)-1])`:
element `i` is `s[i+1] * conj (s[i])`. -/
def rotated (s : List ℂ) : List ℂ :=
  List.zipWith (fun next prev => next * conj prev) s.tail s

/-- Embedding of `deltas = np.angle(rotated)`: the polar-discriminator FM demodulator. -/
noncomputable def deltas (s : List ℂ) : List ℝ :=
  (rotated s).map Complex.arg

/-- Embedding of `angles = np.angle(downsampled)`. -/
noncomputable def angles (s : List ℂ) : List ℝ :=
  s.map Complex.arg

/-- Embedding of `diffs = np.diff(angles)`: element `i` is `l[i+1] - l[i]`. -/
def diffs (l : List ℝ) : List ℝ :=
  List.zipWith (fun next prev => next - prev) l.tail l

/-- Embedding of the body of the phase-wrapping loop: if `angle > π` subtract `2π`,
else if `angle < -π` add `2π`, else keep the value. -/
noncomputable def adjust (x : ℝ) : ℝ :=
  if x > Real.pi then x - 2 * Real.pi
  else if x < -Real.pi then x + 2 * Real.pi
  else x

/-- Embedding of the `adjusted_diffs` loop: the element-wise phase unwrapper. -/
noncomputable def adjusted_diffs (l : List ℝ) : List ℝ :=
  l.map adjust

theorem length_rotated (s : List ℂ) : (rotated s).length = s.length - 1 := by
  simp [rotated]

theorem length_deltas (s : List ℂ) : (deltas s).length = s.length - 1 := by
  simp [deltas, length_rotated]

theorem rotated_getD (s : List ℂ) (i : ℕ) (hi : i + 1 < s.length) :
    (rotated s).getD i 0 = s.getD (i + 1) 0 * conj (s.getD i 0) := by
  have hlen : i < (rotated s).length := by
    rw [length_rotated]; omega
  rw [List.getD_eq_getElem _ _ hlen, List.getD_eq_getElem _ _ hi,
    List.getD_eq_getElem _ _ (by omega : i < s.length)]
  simp only [rotated, List.getElem_zipWith, List.getElem_tail]

theorem deltas_getD (s : List ℂ) (i : ℕ) (hi : i + 1 < s.length) :
    (deltas s).getD i 0 = Complex.arg (s.getD (i + 1) 0 * conj (s.getD i 0)) := by
  have hlen : i < (rotated s).length := by
    rw [length_rotated]; omega
  rw [deltas, List.getD_eq_getElem _ _ (by simpa using hlen),
    List.getElem_map, ← List.getD_eq_getElem _ 0 hlen, rotated_getD s i hi]

theorem length_diffs (l : List ℝ) : (diffs l).length = l.length - 1 := by
  simp [diffs]

theorem diffs_getD (l : List ℝ) (i : ℕ) (hi : i + 1 < l.length) :
    (diffs l).getD i 0 = l.getD (i + 1) 0 - l.getD i 0 := by
  have hlen : i < (diffs l).length := by
    rw [length_diffs]; omega
  rw [List.getD_eq_getElem _ _ hlen, List.getD_eq_getElem _ _ hi,
    List.getD_eq_getElem _ _ (by omega : i < l.length)]
  simp only [diffs, List.getElem_zipWith, List.getElem_tail]

theorem angles_getD (s : List ℂ) (i : ℕ) (hi : i < s.length) :
    (angles s).getD i 0 = Complex.arg (s.getD i 0) := by
  rw [angles, List.getD_eq_getElem _ _ (by simpa using hi),
    List.getElem_map, ← List.getD_eq_getElem _ 0 hi]

/-- C1: for every input sequence `s` with `2 ≤ len s`, the FM demodulator `deltas`
returns a real sequence of length `len s - 1` whose `i`-th element equals
`arg (s[i+1] * conj (s[i]))`, and every returned value lies in `(-π, π]`. -/
theorem demodulate_spec (s : List ℂ) (h : 2 ≤ s.length) :
    (deltas s).length = s.length - 1 ∧
    ∀ i, i < s.length - 1 →
      (deltas s).getD i 0 = Complex.arg (s.getD (i + 1) 0 * conj (s.getD i 0)) ∧
      (deltas s).getD i 0 ∈ Set.Ioc (-Real.pi) Real.pi := by
  refine ⟨length_deltas s, fun i hi => ?_⟩
  have hi' : i + 1 < s.length := by omega
  refine ⟨deltas_getD s i hi', ?_⟩
  rw [deltas_getD s i hi']
  exact Complex.arg_mem_Ioc _

theorem demodulate_spec_witness :
    2 ≤ ([1, Complex.I] : List ℂ).length ∧
    ((deltas [1, Complex.I]).length = ([1, Complex.I] : List ℂ).length - 1 ∧
     ∀ i, i < ([1, Complex.I] : List ℂ).length - 1 →
       (deltas [1, Complex.I]).getD i 0 =
         Complex.arg (([1, Complex.I] : List ℂ).getD (i + 1) 0 *
           conj (([1, Complex.I] : List ℂ).getD i 0)) ∧
       (deltas [1, Complex.I]).getD i 0 ∈ Set.Ioc (-Real.pi) Real.pi) :=
  ⟨by simp, demodulate_spec [1, Complex.I] (by simp)⟩

/-- C6: on any input of length 0 or 1 the FM demodulator returns the empty
sequence (no error is possible: `rotated` is a total zip of the tail against
the sequence). -/
theorem demodulate_short_input (s : List ℂ) (h : s.length < 2) : deltas s = [] := by
  match s with
  | [] => rfl
  | [a] => rfl
  | a :: b :: t => simp at h; omega

theorem demodulate_short_input_witness :
    ([(1 : ℂ)] : List ℂ).length < 2 ∧ deltas [(1 : ℂ)] = [] :=
  ⟨by simp, demodulate_short_input [(1 : ℂ)] (by simp)⟩

/-- C10: at every output index whose consecutive-pair product
`s[i+1] * conj (s[i])` is zero, the demodulator returns exactly `0`,
following the convention `arg 0 = 0`. -/
theorem demodulate_zero_sample (s : List ℂ) (i : ℕ) (hi : i + 1 < s.length)
    (h : s.getD (i + 1) 0 * conj (s.getD i 0) = 0) :
    (deltas s).getD i 0 = 0 := by
  rw [deltas_getD s i hi, h, Complex.arg_zero]

theorem demodulate_zero_sample_witness :
    (0 : ℕ) + 1 < ([0, 1] : List ℂ).length ∧
    ([0, 1] : List ℂ).getD (0 + 1) 0 * conj (([0, 1] : List ℂ).getD 0 0) = 0 ∧
    (deltas [0, 1]).getD 0 0 = 0 :=
  ⟨by simp, by simp, demodulate_zero_sample [0, 1] 0 (by simp) (by simp)⟩

/-- Embedding of python slicing `l[::r]`, generalized over a start offset:
`takeEveryAux r l k` returns the elements of `l` at positions `k, k + r, k + 2r, …`. -/
def takeEveryAux {α : Type*} (r : ℕ) : List α → ℕ → List α
  | [], _ => []
  | a :: rest, 0 => a :: takeEveryAux r rest (r - 1)
  | _ :: rest, k + 1 => takeEveryAux r rest k

/-- Embedding of `filtered[::r]`: keep every `r`-th sample starting from index 0. -/
def takeEvery {α : Type*} (r : ℕ) (l : List α) : List α :=
  takeEveryAux r l 0

/-- Embedding of `if len(filtered) % r > 0: filtered = filtered[:-(len(filtered) % r)]`:
truncate to an exact multiple of the decimation rate. -/
def truncated {α : Type*} (l : List α) (r : ℕ) : List α :=
  if 0 < l.length % r then l.take (l.length - l.length % r) else l

/-- Embedding of `downsampled = filtered[::r]` applied after the truncation step. -/
def downsampled {α : Type*} (l : List α) (r : ℕ) : List α :=
  takeEvery r (truncated l r)

theorem length_takeEveryAux {α : Type*} (r : ℕ) (hr : 1 ≤ r) :
    ∀ (l : List α) (k : ℕ), (takeEveryAux r l k).length = (l.length - k + r - 1) / r
  | [], k => by
    simp only [takeEveryAux, List.length_nil]
    rw [Nat.div_eq_of_lt (by omega)]
  | a :: rest, 0 => by
    simp only [takeEveryAux, List.length_cons]
    rw [length_takeEveryAux r hr rest (r - 1)]
    rcases Nat.lt_or_ge rest.length (r - 1) with h | h
    · have h1 : rest.length - (r - 1) + r - 1 = r - 1 := by omega
      have h2 : rest.length + 1 - 0 + r - 1 = rest.length + r := by omega
      rw [h1, h2, Nat.div_eq_of_lt (by omega), Nat.add_div_right _ (by omega),
        Nat.div_eq_of_lt (by omega)]
    · have h1 : rest.length - (r - 1) + r - 1 = rest.length := by omega
      have h2 : rest.length + 1 - 0 + r - 1 = rest.length + r := by omega
      rw [h1, h2, Nat.add_div_right _ (by omega)]
  | a :: rest, k + 1 => by
    simp only [takeEveryAux, List.length_cons]
    rw [length_takeEveryAux r hr rest k]
    congr 1
    omega

theorem takeEveryAux_getD {α : Type*} (r : ℕ) (hr : 1 ≤ r) (d : α) :
    ∀ (l : List α) (k i : ℕ), (takeEveryAux r l k).getD i d = l.getD (k + i * r) d
  | [], k, i => by simp [takeEveryAux]
  | a :: rest, 0, 0 => by simp [takeEveryAux]
  | a :: rest, 0, i + 1 => by
    simp only [takeEveryAux, List.getD_cons_succ]
    rw [takeEveryAux_getD r hr d rest (r - 1) i]
    have h : 0 + (i + 1) * r = r - 1 + i * r + 1 := by
      rw [Nat.succ_mul]; omega
    rw [h, List.getD_cons_succ]
  | a :: rest, k + 1, i => by
    simp only [takeEveryAux]
    rw [takeEveryAux_getD r hr d rest k i]
    have h : k + 1 + i * r = k + i * r + 1 := by omega
    rw [h, List.getD_cons_succ]

theorem takeEveryAux_one {α : Type*} : ∀ l : List α, takeEveryAux 1 l 0 = l
  | [] => rfl
  | a :: rest => by
    simp only [takeEveryAux]
    exact congrArg (a :: ·) (takeEveryAux_one rest)

theorem truncated_eq_take {α : Type*} (l : List α) (r : ℕ) :
    truncated l r = l.take (l.length - l.length % r) := by
  unfold truncated
  split
  · rfl
  · rename_i h
    have h0 : l.length % r = 0 := by omega
    rw [h0, Nat.sub_zero, List.take_length]

theorem length_truncated {α : Type*} (l : List α) (r : ℕ) :
    (truncated l r).length = l.length - l.length % r := by
  rw [truncated_eq_take, List.length_take]
  have := Nat.mod_le l.length r
  omega

theorem truncated_getD {α : Type*} (l : List α) (r : ℕ) (i : ℕ) (d : α)
    (hi : i < l.length - l.length % r) :
    (truncated l r).getD i d = l.getD i d := by
  rw [truncated_eq_take]
  have h1 : i < (List.take (l.length - l.length % r) l).length := by
    rw [List.length_take]
    have := Nat.mod_le l.length r
    omega
  have h2 : i < l.length := by
    have := Nat.mod_le l.length r
    omega
  rw [List.getD_eq_getElem _ _ h1, List.getD_eq_getElem _ _ h2]
  exact List.getElem_take l

/-- C3: decimation in SELECT mode truncates exactly the trailing `L mod r` samples,
returns `input[i * r]` at position `i`, has output length `⌊L / r⌋`, and is the
identity for `r = 1`. -/
theorem decimate_select_spec (l : List ℂ) (r : ℕ) (hr : 1 ≤ r) :
    (downsampled l r).length = l.length / r ∧
    (∀ i, i < l.length / r → (downsampled l r).getD i 0 = l.getD (i * r) 0) ∧
    truncated l r = l.take (l.length - l.length % r) ∧
    downsampled l 1 = l := by
  have hmod := Nat.mod_add_div l.length r
  have hm : (truncated l r).length = r * (l.length / r) := by
    rw [length_truncated]; omega
  refine ⟨?_, ?_, truncated_eq_take l r, ?_⟩
  · show (takeEveryAux r (truncated l r) 0).length = _
    rw [length_takeEveryAux r hr]
    have key : (truncated l r).length - 0 + r - 1 = r * (l.length / r) + (r - 1) := by
      omega
    have harith : ∀ q : ℕ, (r * q + (r - 1)) / r = q := by
      intro q
      rw [Nat.mul_add_div (by omega), Nat.div_eq_of_lt (by omega), Nat.add_zero]
    rw [key, harith]
  · intro i hi
    show (takeEveryAux r (truncated l r) 0).getD i 0 = _
    rw [takeEveryAux_getD r hr 0, Nat.zero_add]
    have hlt : i * r < l.length - l.length % r := by
      have h1 : i + 1 ≤ l.length / r := hi
      have h2 : (i + 1) * r ≤ (l.length / r) * r :=
        Nat.mul_le_mul_right r h1
      rw [Nat.succ_mul] at h2
      have h3 : (l.length / r) * r = r * (l.length / r) := Nat.mul_comm _ _
      rw [h3] at h2
      omega
    exact truncated_getD l r (i * r) 0 hlt
  · show takeEveryAux 1 (truncated l 1) 0 = l
    have h1 : truncated l 1 = l := by
      simp [truncated, Nat.mod_one]
    rw [h1, takeEveryAux_one]

theorem decimate_select_spec_witness :
    1 ≤ 2 ∧
    ((downsampled [1, 2, 3, 4, 5] 2).length = ([1, 2, 3, 4, 5] : List ℂ).length / 2 ∧
     (∀ i, i < ([1, 2, 3, 4, 5] : List ℂ).length / 2 →
       (downsampled [1, 2, 3, 4, 5] 2).getD i 0 =
         ([1, 2, 3, 4, 5] : List ℂ).getD (i * 2) 0) ∧
     truncated ([1, 2, 3, 4, 5] : List ℂ) 2 =
       ([1, 2, 3, 4, 5] : List ℂ).take
         (([1, 2, 3, 4, 5] : List ℂ).length - ([1, 2, 3, 4, 5] : List ℂ).length % 2) ∧
     downsampled ([1, 2, 3, 4, 5] : List ℂ) 1 = [1, 2, 3, 4, 5]) :=
  ⟨by decide, decimate_select_spec [1, 2, 3, 4, 5] 2 (by decide)⟩

/-- Embedding of `t = np.arange(0, len(samples))/sample_rate` followed by
`mixing_signal = np.exp(1j*2*np.pi*f2*t)`: the pure complex sinusoid used for
heterodyne mixing, of a given length `n`. -/
noncomputable def mixing_signal (rate f : ℝ) (n : ℕ) : List ℂ :=
  (List.range n).map fun (i : ℕ) =>
    Complex.exp (Complex.I * Complex.ofReal (2 * Real.pi * f * ((i : ℝ) / rate)))

/-- Embedding of `shifted = samples * mixing_signal`: element-wise product of the
input with the mixing sinusoid. -/
noncomputable def mix (s : List ℂ) (f rate : ℝ) : List ℂ :=
  List.zipWith (fun x m => x * m) s (mixing_signal rate f s.length)

theorem length_mixing_signal (rate f : ℝ) (n : ℕ) : (mixing_signal rate f n).length = n := by
  simp [mixing_signal]

theorem length_mix (s : List ℂ) (f rate : ℝ) : (mix s f rate).length = s.length := by
  simp [mix, length_mixing_signal]

/-- C4: mixing preserves the sequence length, and mixing by `f` followed by
mixing by `-f` reconstructs the original sequence exactly (over exact complex
arithmetic). -/
theorem mix_invertible (s : List ℂ) (f rate : ℝ) (hrate : 0 < rate) :
    (mix s f rate).length = s.length ∧ mix (mix s f rate) (-f) rate = s := by
  refine ⟨length_mix s f rate, ?_⟩
  apply List.ext_getElem
  · rw [length_mix, length_mix]
  · intro n h1 h2
    have hn : n < (mix s f rate).length := by rw [length_mix]; exact h2
    have hmsl : n < (mixing_signal rate f s.length).length := by
      rw [length_mixing_signal]; exact h2
    have hmsl' : n < (mixing_signal rate (-f) (mix s f rate).length).length := by
      rw [length_mixing_signal, length_mix]; exact h2
    simp only [mix, List.getElem_zipWith]
    simp only [mixing_signal, List.getElem_map, List.getElem_range]
    rw [mul_assoc, ← Complex.exp_add, ← mul_add, ← Complex.ofReal_add]
    have hzero : 2 * Real.pi * f * ((n : ℝ) / rate) +
        2 * Real.pi * (-f) * ((n : ℝ) / rate) = 0 := by ring
    rw [hzero, Complex.ofReal_zero, mul_zero, Complex.exp_zero, mul_one]

theorem mix_invertible_witness :
    (0 : ℝ) < 1 ∧
    ((mix [1] 1 1).length = ([1] : List ℂ).length ∧ mix (mix [1] 1 1) (-1) 1 = [1]) :=
  ⟨one_pos, mix_invertible [1] 1 1 one_pos⟩

/-- Element-wise sum of two sequences, keeping the tail of the longer one:
the accumulation step of full linear convolution. -/
def addZip : List ℂ → List ℂ → List ℂ
  | [], ys => ys
  | xs, [] => xs
  | x :: xs, y :: ys => (x + y) :: addZip xs ys

/-- Embedding of `np.convolve` in its default full mode, as used by
`filtered = np.convolve(shifted, h)`: scale the kernel by each input sample in
turn and accumulate with a one-sample shift. -/
def convolve : List ℂ → List ℂ → List ℂ
  | [], _ => []
  | a :: x, ker => addZip (ker.map fun b => a * b) (0 :: convolve x ker)

theorem length_addZip : ∀ u v : List ℂ, (addZip u v).length = max u.length v.length
  | [], v => by simp [addZip]
  | x :: xs, [] => by simp [addZip]
  | x :: xs, y :: ys => by
    simp only [addZip, List.length_cons, length_addZip xs ys]
    omega

theorem addZip_getD : ∀ (u v : List ℂ) (n : ℕ),
    (addZip u v).getD n 0 = u.getD n 0 + v.getD n 0
  | [], v, n => by simp [addZip]
  | x :: xs, [], n => by simp [addZip]
  | x :: xs, y :: ys, 0 => by simp [addZip]
  | x :: xs, y :: ys, n + 1 => by
    simp only [addZip, List.getD_cons_succ]
    exact addZip_getD xs ys n

theorem getD_map_mul (a : ℂ) (l : List ℂ) (n : ℕ) :
    (l.map fun b => a * b).getD n 0 = a * l.getD n 0 := by
  rcases Nat.lt_or_ge n l.length with h | h
  · rw [List.getD_eq_getElem _ _ (by simpa using h), List.getElem_map,
      List.getD_eq_getElem _ _ h]
  · rw [List.getD_eq_default _ _ (by simpa using h), List.getD_eq_default _ _ h, mul_zero]

theorem length_convolve : ∀ x ker : List ℂ, x ≠ [] → ker ≠ [] →
    (convolve x ker).length = x.length + ker.length - 1
  | [], _, hx, _ => absurd rfl hx
  | [a], ker, _, hk => by
    have hk1 : 1 ≤ ker.length := List.length_pos.mpr hk
    simp only [convolve, length_addZip, List.length_map, List.length_cons,
      List.length_nil]
    omega
  | a :: b :: x, ker, _, hk => by
    have hk1 : 1 ≤ ker.length := List.length_pos.mpr hk
    have ih := length_convolve (b :: x) ker (by simp) hk
    have step : convolve (a :: b :: x) ker =
        addZip (ker.map fun c => a * c) (0 :: convolve (b :: x) ker) := rfl
    rw [step, length_addZip, List.length_map, List.length_cons, ih]
    simp only [List.length_cons]
    omega

theorem convolve_getD : ∀ (x ker : List ℂ) (n : ℕ),
    (convolve x ker).getD n 0 =
      ∑ k ∈ Finset.range (n + 1), x.getD k 0 * ker.getD (n - k) 0
  | [], ker, n => by
    simp [convolve]
  | a :: x, ker, n => by
    simp only [convolve, addZip_getD, getD_map_mul]
    rw [Finset.sum_range_succ']
    simp only [List.getD_cons_zero, List.getD_cons_succ, Nat.sub_zero]
    rcases n with _ | m
    · simp
    · rw [List.getD_cons_succ, convolve_getD x ker m]
      rw [add_comm]
      congr 1
      refine Finset.sum_congr rfl fun k hk => ?_
      have hidx : m + 1 - (k + 1) = m - k := by omega
      rw [hidx]

/-- C7: for non-empty input and non-empty kernel, `convolve` returns the full
linear convolution: length `len x + len ker - 1`, with the `n`-th output equal
to the convolution sum `∑ k, x[k] * ker[n-k]` (out-of-range terms read as 0),
and no truncation. -/
theorem convolve_full_spec (x ker : List ℂ) (hx : x ≠ []) (hk : ker ≠ []) :
    (convolve x ker).length = x.length + ker.length - 1 ∧
    ∀ n, (convolve x ker).getD n 0 =
      ∑ k ∈ Finset.range (n + 1), x.getD k 0 * ker.getD (n - k) 0 :=
  ⟨length_convolve x ker hx hk, fun n => convolve_getD x ker n⟩

theorem convolve_full_spec_witness :
    ([1, 2] : List ℂ) ≠ [] ∧ ([1] : List ℂ) ≠ [] ∧
    ((convolve [1, 2] [1]).length = ([1, 2] : List ℂ).length + ([1] : List ℂ).length - 1 ∧
     ∀ n, (convolve [1, 2] [1]).getD n 0 =
       ∑ k ∈ Finset.range (n + 1),
         ([1, 2] : List ℂ).getD k 0 * ([1] : List ℂ).getD (n - k) 0) :=
  ⟨by simp, by simp, convolve_full_spec [1, 2] [1] (by simp) (by simp)⟩

theorem adjusted_diffs_getD (l : List ℝ) (i : ℕ) (hi : i < l.length) :
    (adjusted_diffs l).getD i 0 = adjust (l.getD i 0) := by
  rw [adjusted_diffs, List.getD_eq_getElem _ _ (by simpa using hi),
    List.getElem_map, ← List.getD_eq_getElem _ 0 hi]

theorem adjust_neg_pi : adjust (-Real.pi) = -Real.pi := by
  have hp := Real.pi_pos
  unfold adjust
  rw [if_neg (by linarith), if_neg (lt_irrefl _)]

/-- C5 (amended): on phase differences lying in `(-2π, 2π)` the unwrapper
preserves length, subtracts `2π` from elements above `π`, adds `2π` to elements
below `-π`, keeps the rest, and every output element lies in the closed
interval `[-π, π]` (the left endpoint is attained: an input of exactly `-π` is
returned unchanged). -/
theorem unwrap_spec (l : List ℝ)
    (h : ∀ x ∈ l, x ∈ Set.Ioo (-(2 * Real.pi)) (2 * Real.pi)) :
    (adjusted_diffs l).length = l.length ∧
    ∀ i, i < l.length →
      (adjusted_diffs l).getD i 0 ∈ Set.Icc (-Real.pi) Real.pi ∧
      (Real.pi < l.getD i 0 →
        (adjusted_diffs l).getD i 0 = l.getD i 0 - 2 * Real.pi) ∧
      (l.getD i 0 < -Real.pi →
        (adjusted_diffs l).getD i 0 = l.getD i 0 + 2 * Real.pi) ∧
      (-Real.pi ≤ l.getD i 0 → l.getD i 0 ≤ Real.pi →
        (adjusted_diffs l).getD i 0 = l.getD i 0) := by
  refine ⟨by simp [adjusted_diffs], fun i hi => ?_⟩
  have hmem : l.getD i 0 ∈ l := by
    rw [List.getD_eq_getElem _ _ hi]
    exact List.getElem_mem _
  have hx := h _ hmem
  rw [adjusted_diffs_getD l i hi]
  have hp := Real.pi_pos
  unfold adjust
  split_ifs with h1 h2
  · exact ⟨⟨by linarith [hx.1, hx.2], by linarith [hx.1, hx.2]⟩, fun _ => rfl,
      fun hc => by linarith, fun _ hc => by linarith⟩
  · exact ⟨⟨by linarith [hx.1, hx.2], by linarith [hx.1, hx.2]⟩, fun hc => by linarith,
      fun _ => rfl, fun hc _ => by linarith⟩
  · exact ⟨⟨by linarith, by linarith⟩, fun hc => by linarith,
      fun hc => by linarith, fun _ _ => rfl⟩

theorem unwrap_spec_witness :
    (∀ x ∈ ([0] : List ℝ), x ∈ Set.Ioo (-(2 * Real.pi)) (2 * Real.pi)) ∧
    ((adjusted_diffs [0]).length = ([0] : List ℝ).length ∧
     ∀ i, i < ([0] : List ℝ).length →
       (adjusted_diffs [0]).getD i 0 ∈ Set.Icc (-Real.pi) Real.pi ∧
       (Real.pi < ([0] : List ℝ).getD i 0 →
         (adjusted_diffs [0]).getD i 0 = ([0] : List ℝ).getD i 0 - 2 * Real.pi) ∧
       (([0] : List ℝ).getD i 0 < -Real.pi →
         (adjusted_diffs [0]).getD i 0 = ([0] : List ℝ).getD i 0 + 2 * Real.pi) ∧
       (-Real.pi ≤ ([0] : List ℝ).getD i 0 → ([0] : List ℝ).getD i 0 ≤ Real.pi →
         (adjusted_diffs [0]).getD i 0 = ([0] : List ℝ).getD i 0)) := by
  have hdom : ∀ x ∈ ([0] : List ℝ), x ∈ Set.Ioo (-(2 * Real.pi)) (2 * Real.pi) := by
    intro x hx
    have hp := Real.pi_pos
    simp only [List.mem_singleton] at hx
    subst hx
    exact ⟨by linarith, by linarith⟩
  exact ⟨hdom, unwrap_spec [0] hdom⟩

/-- C5 counterexample: the value `-π` is a difference of two angles in
`(-π, π]` and lies in `(-2π, 2π)`, yet the unwrapper returns it unchanged and
`-π` does not lie in the claimed half-open range `(-π, π]`. -/
theorem unwrap_spec_counterexample :
    (0 : ℝ) ∈ Set.Ioc (-Real.pi) Real.pi ∧
    Real.pi ∈ Set.Ioc (-Real.pi) Real.pi ∧
    (0 : ℝ) - Real.pi = -Real.pi ∧
    (-Real.pi) ∈ Set.Ioo (-(2 * Real.pi)) (2 * Real.pi) ∧
    adjusted_diffs [-Real.pi] = [-Real.pi] ∧
    -Real.pi ∉ Set.Ioc (-Real.pi) Real.pi := by
  have hp := Real.pi_pos
  refine ⟨⟨by linarith, by linarith⟩, ⟨by linarith, le_refl _⟩, by ring,
    ⟨by linarith, by linarith⟩, ?_, ?_⟩
  · simp only [adjusted_diffs, List.map_cons, List.map_nil, adjust_neg_pi]
  · intro hmem
    exact absurd hmem.1 (lt_irrefl _)

theorem angle_coe_inj {x y : ℝ} (hx : x ∈ Set.Ioc (-Real.pi) Real.pi)
    (hy : y ∈ Set.Ioc (-Real.pi) Real.pi) (h : (x : Real.Angle) = y) : x = y := by
  have hx' := Real.Angle.toReal_coe_eq_self_iff.mpr ⟨hx.1, hx.2⟩
  have hy' := Real.Angle.toReal_coe_eq_self_iff.mpr ⟨hy.1, hy.2⟩
  rw [← hx', ← hy', h]

theorem arg_mul_conj_coe (a b : ℂ) (ha : a ≠ 0) (hb : b ≠ 0) :
    ((Complex.arg (b * conj a) : ℝ) : Real.Angle) =
      ((Complex.arg b - Complex.arg a : ℝ) : Real.Angle) := by
  rw [Complex.arg_mul_coe_angle hb
      (show (starRingEnd ℂ) a ≠ 0 from star_ne_zero.mpr ha), Complex.arg_conj_coe_angle,
    Real.Angle.coe_sub, sub_eq_add_neg]

theorem adjust_coe (x : ℝ) : ((adjust x : ℝ) : Real.Angle) = (x : Real.Angle) := by
  unfold adjust
  split_ifs
  · rw [Real.Angle.coe_sub, Real.Angle.coe_two_pi, sub_zero]
  · rw [Real.Angle.coe_add, Real.Angle.coe_two_pi, add_zero]
  · rfl

theorem adjust_mem_Ioc {x : ℝ} (hx : x ∈ Set.Ioo (-(2 * Real.pi)) (2 * Real.pi))
    (hne : x ≠ -Real.pi) : adjust x ∈ Set.Ioc (-Real.pi) Real.pi := by
  have hp := Real.pi_pos
  unfold adjust
  split_ifs with h1 h2
  · exact ⟨by linarith, by linarith [hx.2]⟩
  · exact ⟨by linarith [hx.1], by linarith⟩
  · exact ⟨lt_of_le_of_ne (not_lt.mp h2) (Ne.symm hne), not_lt.mp h1⟩

/-- The key pairwise fact behind claim C2: for nonzero samples `a`, `b`, unless
the naive angle difference is exactly `-π`, unwrapping it reproduces the polar
discriminator `arg (b * conj a)`. -/
theorem adjust_diff_eq_arg (a b : ℂ) (ha : a ≠ 0) (hb : b ≠ 0)
    (hne : Complex.arg b - Complex.arg a ≠ -Real.pi) :
    adjust (Complex.arg b - Complex.arg a) = Complex.arg (b * conj a) := by
  have hA := Complex.arg_mem_Ioc a
  have hB := Complex.arg_mem_Ioc b
  have hIoo : Complex.arg b - Complex.arg a ∈
      Set.Ioo (-(2 * Real.pi)) (2 * Real.pi) := by
    exact ⟨by linarith [hA.2, hB.1], by linarith [hA.1, hB.2]⟩
  exact angle_coe_inj (adjust_mem_Ioc hIoo hne) (Complex.arg_mem_Ioc _)
    (by rw [adjust_coe, arg_mul_conj_coe a b ha hb])

/-- C2 (amended): for a sequence of nonzero samples, at every index whose naive
angle difference is not exactly `-π`, unwrapping the naive difference reproduces
the polar discriminator; and where the naive difference exceeds `π`
(resp. lies below `-π`) it differs from the polar discriminator by exactly
`+2π` (resp. `-2π`). At a naive difference of exactly `-π` the two paths differ
by `2π` (see the counterexample). -/
theorem naive_diff_vs_polar (s : List ℂ) (hnz : ∀ z ∈ s, z ≠ 0) (i : ℕ)
    (hi : i + 1 < s.length) :
    ((diffs (angles s)).getD i 0 ≠ -Real.pi →
      (adjusted_diffs (diffs (angles s))).getD i 0 = (deltas s).getD i 0) ∧
    (Real.pi < (diffs (angles s)).getD i 0 →
      (diffs (angles s)).getD i 0 - (deltas s).getD i 0 = 2 * Real.pi) ∧
    ((diffs (angles s)).getD i 0 < -Real.pi →
      (diffs (angles s)).getD i 0 - (deltas s).getD i 0 = -(2 * Real.pi)) := by
  have hi0 : i < s.length := by omega
  have ha : s.getD i 0 ≠ 0 := by
    refine hnz _ ?_
    rw [List.getD_eq_getElem _ _ hi0]
    exact List.getElem_mem _
  have hb : s.getD (i + 1) 0 ≠ 0 := by
    refine hnz _ ?_
    rw [List.getD_eq_getElem _ _ hi]
    exact List.getElem_mem _
  have hlenang : (angles s).length = s.length := by simp [angles]
  have hd : (diffs (angles s)).getD i 0 =
      Complex.arg (s.getD (i + 1) 0) - Complex.arg (s.getD i 0) := by
    rw [diffs_getD _ i (by rw [hlenang]; exact hi), angles_getD s (i + 1) hi,
      angles_getD s i hi0]
  have hdl : i < (diffs (angles s)).length := by
    rw [length_diffs, hlenang]; omega
  have hadj : (adjusted_diffs (diffs (angles s))).getD i 0 =
      adjust ((diffs (angles s)).getD i 0) := adjusted_diffs_getD _ i hdl
  have hdel : (deltas s).getD i 0 =
      Complex.arg (s.getD (i + 1) 0 * conj (s.getD i 0)) := deltas_getD s i hi
  have hp := Real.pi_pos
  refine ⟨fun hne => ?_, fun hgt => ?_, fun hlt => ?_⟩
  · rw [hadj, hdel, hd]
    exact adjust_diff_eq_arg _ _ ha hb (by rw [← hd]; exact hne)
  · have h1 := adjust_diff_eq_arg (s.getD i 0) (s.getD (i + 1) 0) ha hb
      (by rw [← hd]; intro hc; rw [hc] at hgt; linarith)
    have h2 : adjust ((diffs (angles s)).getD i 0) =
        (diffs (angles s)).getD i 0 - 2 * Real.pi := by
      unfold adjust
      rw [if_pos hgt]
    rw [hd] at h2
    rw [hdel, hd]
    rw [hd] at hgt
    linarith [h1, h2]
  · have h1 := adjust_diff_eq_arg (s.getD i 0) (s.getD (i + 1) 0) ha hb
      (by rw [← hd]; exact hlt.ne)
    have h2 : adjust ((diffs (angles s)).getD i 0) =
        (diffs (angles s)).getD i 0 + 2 * Real.pi := by
      unfold adjust
      rw [if_neg (by rw [hd] at hlt ⊢; linarith), if_pos hlt]
    rw [hd] at h2
    rw [hdel, hd]
    rw [hd] at hlt
    linarith [h1, h2]

theorem naive_diff_vs_polar_witness :
    (∀ z ∈ ([1, Complex.I] : List ℂ), z ≠ 0) ∧ (0 : ℕ) + 1 < ([1, Complex.I] : List ℂ).length ∧
    (((diffs (angles [1, Complex.I])).getD 0 0 ≠ -Real.pi →
      (adjusted_diffs (diffs (angles [1, Complex.I]))).getD 0 0 =
        (deltas [1, Complex.I]).getD 0 0) ∧
     (Real.pi < (diffs (angles [1, Complex.I])).getD 0 0 →
      (diffs (angles [1, Complex.I])).getD 0 0 - (deltas [1, Complex.I]).getD 0 0 =
        2 * Real.pi) ∧
     ((diffs (angles [1, Complex.I])).getD 0 0 < -Real.pi →
      (diffs (angles [1, Complex.I])).getD 0 0 - (deltas [1, Complex.I]).getD 0 0 =
        -(2 * Real.pi))) := by
  have hnz : ∀ z ∈ ([1, Complex.I] : List ℂ), z ≠ 0 := by
    intro z hz
    simp only [List.mem_cons, List.mem_singleton, List.not_mem_nil, or_false] at hz
    rcases hz with h | h <;> subst h
    · exact one_ne_zero
    · exact Complex.I_ne_zero
  exact ⟨hnz, by simp, naive_diff_vs_polar [1, Complex.I] hnz 0 (by simp)⟩

/-- C2 counterexample: on the nonzero-sample sequence `[-1, 1]` the naive angle
difference is exactly `-π`; the unwrapper leaves it at `-π` while the polar
discriminator yields `π`, so the two paths do not agree element by element. -/
theorem naive_diff_vs_polar_counterexample :
    (∀ z ∈ ([-1, 1] : List ℂ), z ≠ 0) ∧
    adjusted_diffs (diffs (angles [-1, 1])) = [-Real.pi] ∧
    deltas [-1, 1] = [Real.pi] ∧
    (-Real.pi : ℝ) ≠ Real.pi := by
  have hp := Real.pi_pos
  refine ⟨?_, ?_, ?_, by intro h; linarith⟩
  · intro z hz
    simp only [List.mem_cons, List.mem_singleton, List.not_mem_nil, or_false] at hz
    rcases hz with h | h <;> subst h
    · exact neg_ne_zero.mpr one_ne_zero
    · exact one_ne_zero
  · have hang : angles ([-1, 1] : List ℂ) = [Real.pi, 0] := by
      simp [angles, Complex.arg_neg_one, Complex.arg_one]
    rw [hang]
    have hdif : diffs [Real.pi, 0] = [-Real.pi] := by
      simp [diffs]
    rw [hdif]
    simp only [adjusted_diffs, List.map_cons, List.map_nil, adjust_neg_pi]
  · have hrot : rotated ([-1, 1] : List ℂ) = [-1] := by
      simp [rotated]
    rw [deltas, hrot]
    simp [Complex.arg_neg_one]

/-- Embedding of `np.sinc`: the normalized sinc function `sin(πx)/(πx)` with
value 1 at 0. -/
noncomputable def npsinc (x : ℝ) : ℝ :=
  if x = 0 then 1 else Real.sin (Real.pi * x) / (Real.pi * x)

/-- Embedding of `np.blackman(N)`: the Blackman window coefficient at index `k`. -/
noncomputable def blackman (N k : ℕ) : ℝ :=
  0.42 - 0.5 * Real.cos (2 * Real.pi * (k : ℝ) / ((N : ℝ) - 1)) +
    0.08 * Real.cos (4 * Real.pi * (k : ℝ) / ((N : ℝ) - 1))

/-- Embedding of `N = int(np.ceil(4/.02))`: the hardcoded tap-count heuristic. -/
noncomputable def rawtaps : ℕ := ⌈(4 : ℝ) / 0.02⌉₊

/-- Embedding of `if N % 2: N += 1`: the tap count forced even. -/
noncomputable def numtaps : ℕ := if rawtaps % 2 = 1 then rawtaps + 1 else rawtaps

/-- Embedding of the filter-design cell: `frac = cutoff/sample_rate`,
`sinc = np.sinc(2*frac*(np.arange(N) - (N-1)/2))`, `h = sinc * np.blackman(N)`.
The source performs no validation of `cutoff` against the Nyquist frequency. -/
noncomputable def design_lowpass (cutoff rate : ℝ) : List ℝ :=
  (List.range numtaps).map fun (k : ℕ) =>
    npsinc (2 * (cutoff / rate) * ((k : ℝ) - ((numtaps : ℝ) - 1) / 2)) *
      blackman numtaps k

theorem rawtaps_eq : rawtaps = 200 := by
  unfold rawtaps
  rw [show (4 : ℝ) / 0.02 = ((200 : ℕ) : ℝ) from by norm_num]
  exact Nat.ceil_natCast 200

theorem numtaps_eq : numtaps = 200 := by
  unfold numtaps
  rw [rawtaps_eq]
  norm_num

/-- C8: the source omits the Nyquist validation the spec calls for: with
`cutoff = 1.2e6` and `sample_rate = 2.048e6` the cutoff is at or above the
Nyquist frequency `sample_rate / 2`, yet the designer still returns a full
200-tap kernel instead of failing. -/
theorem design_lowpass_no_nyquist_check :
    (2.048e6 : ℝ) / 2 ≤ 1.2e6 ∧ (design_lowpass 1.2e6 2.048e6).length = 200 := by
  refine ⟨by norm_num, ?_⟩
  simp [design_lowpass, numtaps_eq]

/-- Error kinds of the spec's error-handling design. -/
inductive IngestError where
  | invalidArgument
  | endOfStream
  | malformedRecord

/-- Embedding of `data.astype(np.float64).view(np.complex128)` on an even-length
array: consecutive `(real, imaginary)` scalar pairs become complex samples. -/
def toPairs : List ℝ → List ℂ
  | re :: im :: rest => (⟨re, im⟩ : ℂ) :: toPairs rest
  | _ => []

/-- Embedding of `read_iq` (src/unnamed/part_000) on the list of scalar values
obtained after the header skip and the count limit: numpy's
`view(np.complex128)` raises when the scalar count is not a whole number of
sample-pairs, which the spec's taxonomy names `MalformedRecord`; otherwise the
scalars are paired into complex samples. -/
def read_iq (data : List ℝ) : Except IngestError (List ℂ) :=
  if data.length % 2 = 0 then Except.ok (toPairs data)
  else Except.error IngestError.malformedRecord

theorem toPairs_length : ∀ data : List ℝ, (toPairs data).length = data.length / 2
  | [] => by simp [toPairs]
  | [x] => by simp [toPairs]
  | re :: im :: rest => by
    simp only [toPairs, List.length_cons, toPairs_length rest]
    omega

theorem toPairs_getD : ∀ (data : List ℝ) (i : ℕ), i < data.length / 2 →
    (toPairs data).getD i 0 = (⟨data.getD (2 * i) 0, data.getD (2 * i + 1) 0⟩ : ℂ)
  | [], i, hi => by
    simp only [List.length_nil] at hi
    omega
  | [x], i, hi => by
    simp only [List.length_cons, List.length_nil] at hi
    omega
  | re :: im :: rest, 0, hi => by
    simp [toPairs]
  | re :: im :: rest, i + 1, hi => by
    have hi' : i < rest.length / 2 := by
      simp only [List.length_cons] at hi
      omega
    have h1 : (re :: im :: rest).getD (2 * (i + 1)) 0 = rest.getD (2 * i) 0 := by
      rw [show 2 * (i + 1) = 2 * i + 1 + 1 from by omega, List.getD_cons_succ,
        List.getD_cons_succ]
    have h2 : (re :: im :: rest).getD (2 * (i + 1) + 1) 0 = rest.getD (2 * i + 1) 0 := by
      rw [show 2 * (i + 1) + 1 = 2 * i + 1 + 1 + 1 from by omega, List.getD_cons_succ,
        List.getD_cons_succ]
    have hstep : toPairs (re :: im :: rest) = (⟨re, im⟩ : ℂ) :: toPairs rest := rfl
    rw [hstep, List.getD_cons_succ, toPairs_getD rest i hi', h1, h2]

/-- C9: the IQ reader fails with `malformedRecord` whenever the scalar count is
odd, and on an even count returns exactly `count / 2` complex samples, the
`i`-th formed from the consecutive pair `(data[2i], data[2i+1])`. -/
theorem read_iq_spec (data : List ℝ) :
    (data.length % 2 ≠ 0 → read_iq data = Except.error IngestError.malformedRecord) ∧
    (data.length % 2 = 0 →
      read_iq data = Except.ok (toPairs data) ∧
      (toPairs data).length = data.length / 2 ∧
      ∀ i, i < data.length / 2 →
        (toPairs data).getD i 0 =
          (⟨data.getD (2 * i) 0, data.getD (2 * i + 1) 0⟩ : ℂ)) := by
  constructor
  · intro h
    unfold read_iq
    rw [if_neg h]
  · intro h
    exact ⟨by unfold read_iq; rw [if_pos h], toPairs_length data,
      fun i hi => toPairs_getD data i hi⟩

theorem read_iq_spec_witness :
    ([1, 2, 3] : List ℝ).length % 2 ≠ 0 ∧
    read_iq [1, 2, 3] = Except.error IngestError.malformedRecord ∧
    ([1, 2, 3, 4] : List ℝ).length % 2 = 0 ∧
    read_iq [1, 2, 3, 4] = Except.ok (toPairs [1, 2, 3, 4]) :=
  ⟨by decide, (read_iq_spec [1, 2, 3]).1 (by decide), by decide,
    ((read_iq_spec [1, 2, 3, 4]).2 (by decide)).1⟩

end RTLIngest
